import Mathlib

/-!
Verification model of the BL-Drama-Recommendation-System core
(`app/main.py`): catalog records, the fuzzy/keyword `recommend`
resolver, the `get_top_rated` browser, the rating coercion of the
loader, and the cosine-similarity matrix.

Python strings are modelled as `List Char`.  The external libraries the
code calls are modelled as follows:

* `fuzz.partial_ratio` (fuzzywuzzy) is an opaque scoring function
  `PyStr → PyStr → ℕ` passed as a parameter; the code only compares its
  results against the fixed threshold 80.
* `pandas.Series.str.contains` compiles its argument as a regular
  expression (`regex=True` is the pandas default) and uses `re.search`.
  The fragment of Python `re` exercised here is modelled faithfully:
  literal characters, the `.` wildcard, the postfix `*`, `+`, `?`
  quantifiers and punctuation escapes; other metacharacters are
  rejected as unsupported (Python itself rejects a lone `(`, `[`, or a
  trailing backslash).  Invalid patterns surface as `Except.error`,
  matching the `re.error` exception Python raises.
* `pandas.sort_values` (default `kind=quicksort`, `ascending=False`) is
  modelled relationally: any permutation of the catalog that is sorted
  by rating descending, since the tie order of the numpy quicksort
  (whose ascending result is additionally reversed by pandas for
  descending sorts) is implementation defined and in particular not
  stable.
* `cosine_similarity(X, X)` (scikit-learn) normalizes every row and
  takes pairwise real inner products; rows with zero norm are left as
  zero, exactly as sklearn's `normalize` does.
-/

/-- Python strings, modelled as lists of characters. -/
abbrev PyStr := List Char

/-- The whitespace characters removed by Python's `str.strip()`
(ASCII fragment). -/
def isPySpace (c : Char) : Bool :=
  c = ' ' || c = '\t' || c = '\n' || c = '\x0d' || c = '\x0b' || c = '\x0c'

/-- `str.strip()`: drop whitespace from both ends. -/
def pyStrip (s : PyStr) : PyStr :=
  ((s.dropWhile isPySpace).reverse.dropWhile isPySpace).reverse

/-- `str.lower()` (ASCII fragment; other characters are unchanged). -/
def pyLower (s : PyStr) : PyStr :=
  s.map Char.toLower

/-- `str(query)` applied to the `query=None` default or to a string
argument: Python renders `None` as the four characters `None`. -/
def pyStr : Option PyStr → PyStr
  | none => 'N' :: 'o' :: 'n' :: 'e' :: []
  | some s => s

/-- One normalized catalog row of the dataframe `df`, after the loader
has run (columns cleaned, rating coerced, text fields filled,
genres decorated). -/
structure Record where
  title : PyStr
  genres : PyStr
  mood_tags : PyStr
  summary : PyStr
  main_leads : PyStr
  year : PyStr
  rating : ℚ
deriving DecidableEq, Inhabited

/-- The per-query search blob of a record:
`' '.join([Title, Genres, Mood_Tags]).lower()` (main.py line 69). -/
def search_blob (r : Record) : PyStr :=
  pyLower (r.title ++ (' ' :: r.genres) ++ (' ' :: r.mood_tags))

/-- Header returned for an empty query (main.py line 66). -/
def empty_msg : PyStr :=
  ("Please enter a drama name or keyword." : String).data

/-- Header returned when the keyword search finds nothing
(main.py line 85). -/
def no_results_msg : PyStr :=
  ("No dramas found for your search. Try another keyword!" : String).data

/-- Header of a keyword-search result (main.py line 87). -/
def keyword_msg : PyStr :=
  ("Here are some dramas similar to what you searched for:" : String).data

/-- Header of a title-match result (main.py line 80). -/
def title_msg (t : PyStr) : PyStr :=
  ("If you liked <b>" : String).data ++ t ++
    ("</b>, you might also enjoy:" : String).data

/-- The descending comparison used by
`sorted(key=lambda x: x[1], reverse=True)` on score pairs. -/
def descRel {α : Type} {β : Type} [LinearOrder β] (a b : α × β) : Prop :=
  b.2 ≤ a.2

instance {α β : Type} [LinearOrder β] : DecidableRel (@descRel α β _) :=
  fun a b => inferInstanceAs (Decidable (b.2 ≤ a.2))

instance {α β : Type} [LinearOrder β] : IsTotal (α × β) descRel :=
  ⟨fun a b => le_total b.2 a.2⟩

instance {α β : Type} [LinearOrder β] : IsTrans (α × β) descRel :=
  ⟨fun _ _ _ h1 h2 => le_trans h2 h1⟩

/-- Python's `sorted(pairs, key=lambda x: x[1], reverse=True)`: a stable
sort by second component descending (timsort is stable; insertion sort
with a non-strict descending relation computes the same list). -/
def sortDesc {α β : Type} [LinearOrder β] (l : List (α × β)) : List (α × β) :=
  List.insertionSort descRel l

/-- `df.iloc[i]`: positional row lookup (the dataframe keeps its
`RangeIndex` from `read_csv`, so label and position coincide). -/
def getRec (catalog : List Record) (i : ℕ) : Record :=
  catalog.getD i default

/-- Abstract syntax of the modelled fragment of Python regular
expressions: the empty language (used by the matcher), the empty
pattern, a literal character, the `.` wildcard, concatenation,
alternation and Kleene star. -/
inductive Regex where
  | fail : Regex
  | eps : Regex
  | chr (c : Char) : Regex
  | dot : Regex
  | cat (r1 r2 : Regex) : Regex
  | alt (r1 r2 : Regex) : Regex
  | star (r : Regex) : Regex
deriving DecidableEq

/-- The `re.error` exceptions raised while compiling a pattern.
`unsupportedMeta` marks metacharacters outside the modelled fragment
(Python itself raises on a lone `(`, `)` or `[`). -/
inductive RegexError where
  | nothingToRepeat : RegexError
  | multipleRepeat : RegexError
  | badEscape : RegexError
  | unsupportedMeta (c : Char) : RegexError
deriving DecidableEq

/-- All ways of cutting `s` into two consecutive pieces. -/
def splits (s : List Char) : List (List Char × List Char) :=
  (List.range (s.length + 1)).map fun i => (s.take i, s.drop i)

/-- Does the regex accept the empty string? -/
def nullable : Regex → Bool
  | .fail => false
  | .eps => true
  | .chr _ => false
  | .dot => false
  | .cat r1 r2 => nullable r1 && nullable r2
  | .alt r1 r2 => nullable r1 || nullable r2
  | .star _ => true

/-- Brzozowski derivative: the language of `rderiv r c` is the set of
words `s` with `c :: s` in the language of `r`. -/
def rderiv : Regex → Char → Regex
  | .fail, _ => .fail
  | .eps, _ => .fail
  | .chr c, d => if d = c then .eps else .fail
  | .dot, _ => .eps
  | .cat r1 r2, d =>
    if nullable r1 then .alt (.cat (rderiv r1 d) r2) (rderiv r2 d)
    else .cat (rderiv r1 d) r2
  | .alt r1 r2, d => .alt (rderiv r1 d) (rderiv r2 d)
  | .star r, d => .cat (rderiv r d) (.star r)

/-- Whole-string matching for the regex fragment, by iterated
derivatives (the standard language semantics; Python's backtracking
engine agrees on this fragment). -/
def rmatch (r : Regex) (s : List Char) : Bool :=
  nullable (s.foldl rderiv r)

/-- Characters that the modelled parser rejects as unsupported
metacharacters (Python raises `re.error` on a lone `(`, `)` or `[`;
the remaining ones — character classes, braces, alternation bars,
anchors — are outside the modelled fragment). -/
def isMeta (c : Char) : Bool :=
  c = '(' || c = ')' || c = '[' || c = ']' || c = '\x7b' || c = '\x7d' ||
    c = '|' || c = '^' || c = '$'

/-- Parser for the modelled fragment of Python patterns.  The
accumulator keeps the parsed atoms in reverse order, paired with a flag
recording whether the atom already carries a quantifier (Python rejects
`a**` with `multiple repeat`; lazy quantifiers such as `a*?` are
outside the fragment and also rejected). -/
def parseAux : List Char → List (Regex × Bool) →
    Except RegexError (List (Regex × Bool))
  | [], acc => .ok acc
  | c :: rest, acc =>
    if c = '*' then
      match acc with
      | [] => .error .nothingToRepeat
      | (_, true) :: _ => .error .multipleRepeat
      | (a, false) :: as => parseAux rest ((.star a, true) :: as)
    else if c = '+' then
      match acc with
      | [] => .error .nothingToRepeat
      | (_, true) :: _ => .error .multipleRepeat
      | (a, false) :: as => parseAux rest ((.cat a (.star a), true) :: as)
    else if c = '?' then
      match acc with
      | [] => .error .nothingToRepeat
      | (_, true) :: _ => .error .multipleRepeat
      | (a, false) :: as => parseAux rest ((.alt a .eps, true) :: as)
    else if c = '.' then parseAux rest ((.dot, false) :: acc)
    else if c = '\\' then
      match rest with
      | [] => .error .badEscape
      | d :: rest2 =>
        if d.isAlphanum then .error .badEscape
        else parseAux rest2 ((.chr d, false) :: acc)
    else if isMeta c then .error (.unsupportedMeta c)
    else parseAux rest ((.chr c, false) :: acc)

/-- `re.compile(pattern)` on the modelled fragment: parse the pattern
and concatenate the atoms in order. -/
def parseRegex (pattern : List Char) : Except RegexError Regex :=
  (parseAux pattern []).map fun acc =>
    (acc.reverse.map Prod.fst).foldr .cat .eps

/-- The regex that matches exactly the literal word `w` (the shape the
parser produces on a metacharacter-free pattern). -/
def litRegex (w : List Char) : Regex :=
  (w.map Regex.chr).foldr .cat .eps

/-- `re.search(r, t)`: some substring of `t` matches `r`. -/
def re_search (r : Regex) (t : List Char) : Bool :=
  (splits t).any fun p => (splits p.2).any fun q => rmatch r q.1

/-- Literal (non-regex) substring containment: `needle in hay` for
Python strings.  This is the reading the spec gives to the keyword
filter. -/
def contains_sub (needle hay : PyStr) : Bool :=
  (splits hay).any fun p => (splits p.2).any fun q => q.1 = needle

/-- Propositional form of literal substring containment. -/
def IsSubstr (needle hay : PyStr) : Prop :=
  ∃ a b, a ++ needle ++ b = hay

/-- Characters with no special meaning to the modelled pattern parser:
ASCII letters and digits and the space.  On queries built from these,
the regex-based pandas filter coincides with literal substring
search. -/
def plainChar (c : Char) : Bool :=
  c.isAlphanum || c = ' '

/-- `str(query).strip().lower()` (main.py line 64). -/
def norm_query (query : Option PyStr) : PyStr :=
  pyLower (pyStrip (pyStr query))

/-- The fuzzy scoring pass of `recommend` (main.py lines 70-71):
score every record's search blob against the query with the external
`fuzz.partial_ratio` function `ps`, then sort the `(index, score)`
pairs by score descending (Python's `sorted` is stable). -/
def scored_matches (ps : PyStr → PyStr → ℕ) (catalog : List Record)
    (q : PyStr) : List (ℕ × ℕ) :=
  sortDesc ((List.range catalog.length).map fun i =>
    (i, ps q (search_blob (getRec catalog i))))

/-- `matches[0]` when it exists: the strongest fuzzy match. -/
def best_match (ps : PyStr → PyStr → ℕ) (catalog : List Record)
    (q : PyStr) : Option (ℕ × ℕ) :=
  (scored_matches ps catalog q).head?

/-- The indices recommended by the title branch (main.py lines 77-79):
enumerate the matched record's row of the similarity matrix, sort by
similarity descending, slice `[1 : n+1]`, keep the indices. -/
def title_indices (sim : ℕ → ℕ → ℚ) (idx len n : ℕ) : List ℕ :=
  ((((sortDesc ((List.range len).map fun j => (j, sim idx j))).drop 1).take n).map
    Prod.fst)

/-- The row positions surviving the keyword filter
`df[search_space.str.contains(query)]` (main.py line 83), for an
already compiled pattern. -/
def keyword_indices (catalog : List Record) (r : Regex) : List ℕ :=
  (List.range catalog.length).filter fun i =>
    re_search r (search_blob (getRec catalog i))

/-- The keyword branch of `recommend` (main.py lines 82-87).  Compiling
the query as a regex can raise `re.error`, which surfaces as
`Except.error`. -/
def keyword_search (catalog : List Record) (q : PyStr) (n : ℕ) :
    Except RegexError (PyStr × List Record) :=
  match parseRegex q with
  | .error e => .error e
  | .ok r =>
    let idxs := keyword_indices catalog r
    if idxs = [] then .ok (no_results_msg, [])
    else .ok (keyword_msg, (idxs.take n).map (getRec catalog))

/-- `recommend(query, num_recommendations)` (main.py lines 63-90).
`ps` models `fuzz.partial_ratio` and `sim` the startup-built cosine
similarity matrix `cosine_sim`. -/
def recommend (ps : PyStr → PyStr → ℕ) (sim : ℕ → ℕ → ℚ)
    (catalog : List Record) (query : Option PyStr)
    (num_recommendations : ℕ) : Except RegexError (PyStr × List Record) :=
  let q := norm_query query
  if q = [] then .ok (empty_msg, [])
  else
    match scored_matches ps catalog q with
    | (idx, s) :: _ =>
      if 80 < s then
        let drama_title := (getRec catalog idx).title
        let recommended_indices :=
          title_indices sim idx catalog.length num_recommendations
        .ok (title_msg drama_title, recommended_indices.map (getRec catalog))
      else keyword_search catalog q num_recommendations
    | [] => keyword_search catalog q num_recommendations

/-- The keyword filter as the spec words it: records whose search blob
contains the query as a literal substring, in catalog order.  Compared
against the regex behaviour of the code. -/
def keyword_filter_literal (catalog : List Record) (q : PyStr) :
    List Record :=
  catalog.filter fun r => contains_sub q (search_blob r)

/-- `df.sort_values("Personal_rating_out_of_10", ascending=False)` is
external pandas code whose tie order is implementation defined (numpy
quicksort, reversed for descending sorts, is not stable); the model
therefore only fixes what the sort guarantees: a permutation of the
catalog that is sorted by rating descending. -/
def IsSortValuesDesc (catalog sorted_df : List Record) : Prop :=
  sorted_df.Perm catalog ∧
    List.Sorted (fun a b => b.rating ≤ a.rating) sorted_df

/-- `get_top_rated(page, per_page)` (main.py lines 92-95) applied to
the sorted dataframe: `iloc[(page-1)*per_page : page*per_page]`
(for `page ≥ 1`; the UI's `number_input` enforces `min_value=1`). -/
def get_top_rated (sorted_df : List Record) (page per_page : ℕ) :
    List Record :=
  (sorted_df.drop ((page - 1) * per_page)).take per_page

/-- The browser as the spec words it: a stable rating-descending sort
(equal ratings retain catalog order) followed by the same slice.
Compared against the unstable pandas sort of the code. -/
def stable_top_rated (catalog : List Record) (page per_page : ℕ) :
    List Record :=
  ((List.insertionSort (fun a b : Record => b.rating ≤ a.rating) catalog).drop
    ((page - 1) * per_page)).take per_page

/-- A raw rating cell as `read_csv` delivers it: already numeric,
missing (`NaN`), or an uninterpreted string. -/
inductive RawCell where
  | num (q : ℚ) : RawCell
  | nan : RawCell
  | text (s : PyStr) : RawCell
deriving DecidableEq

/-- Decimal string parsing as Python's `float` accepts it on the
modelled fragment: optional surrounding whitespace, optional sign,
digits with an optional fractional part (exponents, `inf` and `nan`
are outside the fragment). -/
def parseNumeric (s : PyStr) : Option ℚ :=
  let t := pyStrip s
  let signed : Bool × PyStr :=
    match t with
    | '-' :: u => (true, u)
    | '+' :: u => (false, u)
    | u => (false, u)
  let neg := signed.1
  let u := signed.2
  let ipart := u.takeWhile Char.isDigit
  let rest := u.dropWhile Char.isDigit
  let natOf : PyStr → ℕ := fun ds =>
    ds.foldl (fun n c => 10 * n + (c.toNat - '0'.toNat)) 0
  let mag : Option ℚ :=
    match rest with
    | [] => if ipart = [] then none else some ((natOf ipart : ℚ))
    | '.' :: fpart =>
      if fpart.all Char.isDigit ∧ (ipart ≠ [] ∨ fpart ≠ []) then
        some ((natOf ipart : ℚ) + (natOf fpart : ℚ) / 10 ^ fpart.length)
      else none
    | _ => none
  mag.map fun m => if neg then -m else m

/-- `pd.to_numeric(cell, errors="coerce")`: numbers pass through,
missing values stay missing, strings are parsed, anything unparseable
becomes missing. -/
def to_numeric_coerce : RawCell → Option ℚ
  | .num q => some q
  | .nan => none
  | .text s => parseNumeric s

/-- The rating coercion of the loader (main.py line 16):
`pd.to_numeric(df[...], errors="coerce").fillna(0)`. -/
def load_rating (cell : RawCell) : ℚ :=
  (to_numeric_coerce cell).getD 0

/-- `cosine_similarity(X, X)` (scikit-learn) on the family of TF-IDF
row vectors `v`: every row is normalized (rows of zero norm stay zero,
as in sklearn's `normalize`) and entry `(i, j)` is the real inner
product of the normalized rows `i` and `j`. -/
noncomputable def cosine_sim {n d : ℕ}
    (v : Fin n → EuclideanSpace ℝ (Fin d)) (i j : Fin n) : ℝ :=
  @inner ℝ _ _ ((‖v i‖)⁻¹ • v i) ((‖v j‖)⁻¹ • v j)

/-- A constant-zero stand-in for `fuzz.partial_ratio`: every score is
below the threshold, so the keyword branch is taken. -/
def pr0 : PyStr → PyStr → ℕ := fun _ _ => 0

/-- A zero similarity matrix (cosine of pairwise orthogonal or zero
vectors). -/
def sim0 : ℕ → ℕ → ℚ := fun _ _ => 0

/-- The all-ones similarity matrix: the cosine matrix of records whose
composite features coincide (duplicate descriptive fields). -/
def simOne : ℕ → ℕ → ℚ := fun _ _ => 1

/-- The identity-like similarity matrix: the cosine matrix of pairwise
orthogonal nonzero vectors; its diagonal is a strict row maximum. -/
def simId : ℕ → ℕ → ℚ := fun i j => if i = j then 1 else 0

/-- Fixture record with title `aa`. -/
def recA : Record :=
  ⟨("aa" : String).data, ("g" : String).data, ("m" : String).data,
    ("s" : String).data, ("l" : String).data, ("2020" : String).data, 5⟩

/-- Fixture record with title `bb` and the same descriptive fields as
`recA` (so a TF-IDF model gives the two records identical vectors). -/
def recB : Record :=
  ⟨("bb" : String).data, ("g" : String).data, ("m" : String).data,
    ("s" : String).data, ("l" : String).data, ("2021" : String).data, 5⟩

/-- A `fuzz.partial_ratio` stand-in that recognizes `recB`'s blob as a
strong (above-threshold) match and scores everything else 50. -/
def prB : PyStr → PyStr → ℕ := fun _ b => if b = search_blob recB then 95 else 50

/-- A `fuzz.partial_ratio` stand-in that recognizes `recA`'s blob as a
strong (above-threshold) match and scores everything else 50. -/
def prA : PyStr → PyStr → ℕ := fun _ b => if b = search_blob recA then 95 else 50

theorem mem_splits {s : List Char} {p : List Char × List Char} :
    p ∈ splits s ↔ p.1 ++ p.2 = s := by
  constructor
  · intro h
    simp only [splits, List.mem_map, List.mem_range] at h
    obtain ⟨i, _, rfl⟩ := h
    exact List.take_append_drop i s
  · intro h
    simp only [splits, List.mem_map, List.mem_range]
    refine ⟨p.1.length, ?_, ?_⟩
    · have : s.length = p.1.length + p.2.length := by
        rw [← h, List.length_append]
      omega
    · have h1 : s.take p.1.length = p.1 := by rw [← h]; exact List.take_left p.1 p.2
      have h2 : s.drop p.1.length = p.2 := by rw [← h]; exact List.drop_left p.1 p.2
      rw [h1, h2]

theorem foldl_rderiv_fail : ∀ s : List Char, List.foldl rderiv .fail s = .fail
  | [] => rfl
  | _ :: s => foldl_rderiv_fail s

theorem rmatch_fail (s : List Char) : rmatch .fail s = false := by
  rw [rmatch, foldl_rderiv_fail]
  rfl

theorem rmatch_alt : ∀ (s : List Char) (A B : Regex),
    rmatch (.alt A B) s = (rmatch A s || rmatch B s)
  | [], _, _ => rfl
  | c :: s, A, B => rmatch_alt s (rderiv A c) (rderiv B c)

theorem rmatch_cat_fail : ∀ (s : List Char) (L : Regex),
    rmatch (.cat .fail L) s = false
  | [], _ => rfl
  | _ :: s, L => rmatch_cat_fail s L

theorem rmatch_cat_eps : ∀ (s : List Char) (L : Regex),
    rmatch (.cat .eps L) s = rmatch L s
  | [], L => by
    show (nullable .eps && nullable L) = nullable L
    rw [nullable]
    exact Bool.true_and _
  | c :: s, L => by
    have h1 : rmatch (.cat .eps L) (c :: s) =
        rmatch (.alt (.cat .fail L) (rderiv L c)) s := rfl
    rw [h1, rmatch_alt, rmatch_cat_fail]
    exact Bool.false_or _

theorem rmatch_lit : ∀ (w s : PyStr), rmatch (litRegex w) s = true ↔ s = w := by
  intro w
  induction w with
  | nil =>
    intro s
    cases s with
    | nil => simp [litRegex, rmatch, nullable]
    | cons c s' =>
      have h : rmatch (litRegex []) (c :: s') = rmatch .fail s' := rfl
      rw [h, rmatch_fail]
      simp
  | cons c w' ih =>
    intro s
    cases s with
    | nil =>
      have h : rmatch (litRegex (c :: w')) [] = false := rfl
      rw [h]
      simp
    | cons d s' =>
      have h : rmatch (litRegex (c :: w')) (d :: s') =
          rmatch (.cat (if d = c then .eps else .fail) (litRegex w')) s' := rfl
      rw [h]
      by_cases hdc : d = c
      · rw [if_pos hdc, rmatch_cat_eps, ih s']
        subst hdc
        simp
      · rw [if_neg hdc, rmatch_cat_fail]
        simp [hdc]

theorem rmatch_lit_eq (w u : PyStr) : rmatch (litRegex w) u = decide (u = w) := by
  by_cases h : u = w
  · rw [(rmatch_lit w u).mpr h, decide_eq_true h]
  · rw [decide_eq_false h]
    exact Bool.eq_false_iff.mpr fun hc => h ((rmatch_lit w u).mp hc)

theorem any_eq_any {α : Type} {l : List α} {f g : α → Bool}
    (h : ∀ a ∈ l, f a = g a) : l.any f = l.any g := by
  induction l with
  | nil => rfl
  | cons x xs ih =>
    simp only [List.any_cons]
    rw [h x (by simp), ih fun a ha => h a (by simp [ha])]

theorem re_search_lit (w t : PyStr) : re_search (litRegex w) t = contains_sub w t := by
  simp only [re_search, contains_sub]
  exact any_eq_any fun p _ => any_eq_any fun q _ => rmatch_lit_eq w q.1

theorem contains_sub_iff {w t : PyStr} : contains_sub w t = true ↔ IsSubstr w t := by
  simp only [contains_sub, List.any_eq_true, decide_eq_true_eq]
  constructor
  · rintro ⟨p, hp, q, hq, hqw⟩
    have h1 := mem_splits.mp hp
    have h2 := mem_splits.mp hq
    exact ⟨p.1, q.2, by rw [← h1, ← h2, hqw, List.append_assoc]⟩
  · rintro ⟨a, b, rfl⟩
    exact ⟨(a, w ++ b), mem_splits.mpr (by rw [List.append_assoc]),
      (w, b), mem_splits.mpr rfl, rfl⟩

theorem plainChar_spec {c : Char} (h : plainChar c = true) :
    c ≠ '*' ∧ c ≠ '+' ∧ c ≠ '?' ∧ c ≠ '.' ∧ c ≠ '\\' ∧ isMeta c = false := by
  refine ⟨?_, ?_, ?_, ?_, ?_, ?_⟩
  · rintro rfl; exact absurd h (by decide)
  · rintro rfl; exact absurd h (by decide)
  · rintro rfl; exact absurd h (by decide)
  · rintro rfl; exact absurd h (by decide)
  · rintro rfl; exact absurd h (by decide)
  · cases hm : isMeta c
    · rfl
    · exfalso
      simp only [isMeta, Bool.or_eq_true, decide_eq_true_eq] at hm
      rcases hm with ((((((((rfl | rfl) | rfl) | rfl) | rfl) | rfl) | rfl) | rfl) | rfl) <;>
        exact absurd h (by decide)

theorem parseAux_plain : ∀ (s : List Char) (acc : List (Regex × Bool)),
    (∀ c ∈ s, plainChar c = true) →
    parseAux s acc =
      .ok ((s.map fun c => ((Regex.chr c : Regex), false)).reverse ++ acc) := by
  intro s
  induction s with
  | nil => intro acc _; simp [parseAux]
  | cons c rest ih =>
    intro acc h
    obtain ⟨h1, h2, h3, h4, h5, h6⟩ := plainChar_spec (h c (by simp))
    rw [parseAux.eq_def]
    simp only []
    rw [if_neg h1, if_neg h2, if_neg h3, if_neg h4, if_neg h5,
      if_neg (by simp [h6] : ¬ isMeta c = true)]
    rw [ih _ fun a ha => h a (by simp [ha])]
    simp

theorem parseRegex_plain {s : PyStr} (h : ∀ c ∈ s, plainChar c = true) :
    parseRegex s = .ok (litRegex s) := by
  rw [parseRegex, parseAux_plain s [] h]
  simp only [Except.map, List.append_nil, List.reverse_reverse, List.map_map]
  rw [litRegex]
  rfl

theorem sortDesc_perm {α β : Type} [LinearOrder β] (l : List (α × β)) :
    (sortDesc l).Perm l :=
  List.perm_insertionSort _ l

theorem sortDesc_sorted {α β : Type} [LinearOrder β] (l : List (α × β)) :
    List.Sorted descRel (sortDesc l) :=
  List.sorted_insertionSort _ l

theorem sortDesc_head_strict {α β : Type} [LinearOrder β]
    {l : List (α × β)} {x : α × β} (hx : x ∈ l)
    (hmax : ∀ y ∈ l, y ≠ x → y.2 < x.2) :
    ∃ t, sortDesc l = x :: t := by
  have hperm := sortDesc_perm l
  have hmem : x ∈ sortDesc l := hperm.mem_iff.mpr hx
  cases hs : sortDesc l with
  | nil => rw [hs] at hmem; cases hmem
  | cons hd t =>
    rw [hs] at hmem
    have hh : hd ∈ l := hperm.mem_iff.mp (by rw [hs]; exact List.mem_cons_self hd t)
    by_cases hhx : hd = x
    · exact ⟨t, by rw [hhx]⟩
    · exfalso
      have hxt : x ∈ t := by
        rcases List.mem_cons.mp hmem with h1 | h1
        · exact absurd h1.symm hhx
        · exact h1
      have hsorted := sortDesc_sorted l
      rw [hs] at hsorted
      have hle : descRel hd x := (List.pairwise_cons.mp hsorted).1 x hxt
      exact absurd (hmax hd hh hhx) (not_lt.mpr hle)

theorem mem_range_pairs {β : Type} {f : ℕ → β} {len : ℕ} {y : ℕ × β}
    (hy : y ∈ (List.range len).map fun i => (i, f i)) :
    y.1 < len ∧ y = (y.1, f y.1) := by
  simp only [List.mem_map, List.mem_range] at hy
  obtain ⟨i, hi, rfl⟩ := hy
  exact ⟨hi, rfl⟩

theorem map_fst_range_pairs {β : Type} (f : ℕ → β) (len : ℕ) :
    (((List.range len).map fun i => (i, f i)).map Prod.fst) = List.range len := by
  rw [List.map_map]
  exact List.map_id _

theorem getRec_cons_succ (r : Record) (tl : List Record) (i : ℕ) :
    getRec (r :: tl) (i + 1) = getRec tl i := rfl

theorem range_filter_map_getRec :
    ∀ (l : List Record) (p : Record → Bool),
    (((List.range l.length).filter fun i => p (getRec l i)).map (getRec l)) =
      l.filter p := by
  intro l
  induction l with
  | nil => intro p; simp
  | cons r tl ih =>
    intro p
    show (((List.range (tl.length + 1)).filter fun i => p (getRec (r :: tl) i)).map
      (getRec (r :: tl))) = List.filter p (r :: tl)
    rw [List.range_succ_eq_map, List.filter_cons]
    have hzero : getRec (r :: tl) 0 = r := rfl
    rw [List.filter_map]
    have hcomp : ((fun i => p (getRec (r :: tl) i)) ∘ Nat.succ) =
        fun i => p (getRec tl i) := by
      funext i
      rfl
    rw [hcomp]
    have hmm : (((List.range tl.length).filter fun i => p (getRec tl i)).map
        Nat.succ).map (getRec (r :: tl)) =
        ((List.range tl.length).filter fun i => p (getRec tl i)).map (getRec tl) := by
      rw [List.map_map]
      rfl
    rw [hzero, List.filter_cons] at *
    by_cases hp : p r
    · simp only [hp, if_pos] at *
      simp only [List.map_cons, hmm, ih p]
      rfl
    · simp only [hp] at *
      simp only [Bool.false_eq_true, if_false] at *
      rw [hmm, ih p]

theorem getRec_mem : ∀ {l : List Record} {i : ℕ}, i < l.length → getRec l i ∈ l
  | r :: tl, 0, _ => List.mem_cons_self r tl
  | r :: tl, i + 1, h =>
    List.mem_cons_of_mem r (getRec_mem (by simpa using h))
  | [], _, h => absurd h (by simp)

theorem filter_eq_filter {α : Type} {l : List α} {f g : α → Bool}
    (h : ∀ a ∈ l, f a = g a) : l.filter f = l.filter g := by
  induction l with
  | nil => rfl
  | cons x xs ih =>
    simp only [List.filter_cons]
    rw [h x (by simp), ih fun a ha => h a (by simp [ha])]

theorem scored_matches_mem {ps : PyStr → PyStr → ℕ} {catalog : List Record}
    {q : PyStr} {y : ℕ × ℕ} (hy : y ∈ scored_matches ps catalog q) :
    y.1 < catalog.length ∧ y.2 = ps q (search_blob (getRec catalog y.1)) := by
  have hmem : y ∈ (List.range catalog.length).map fun i =>
      (i, ps q (search_blob (getRec catalog i))) :=
    (sortDesc_perm _).mem_iff.mp hy
  obtain ⟨h1, h2⟩ := mem_range_pairs hmem
  exact ⟨h1, by rw [h2]⟩

theorem recommend_keyword {ps : PyStr → PyStr → ℕ} {sim : ℕ → ℕ → ℚ}
    {catalog : List Record} {query : Option PyStr} {n : ℕ}
    (hq : norm_query query ≠ [])
    (hlow : ∀ r ∈ catalog, ps (norm_query query) (search_blob r) ≤ 80) :
    recommend ps sim catalog query n =
      keyword_search catalog (norm_query query) n := by
  rw [recommend]
  simp only [if_neg hq]
  cases hsm : scored_matches ps catalog (norm_query query) with
  | nil => rfl
  | cons hd tl =>
    obtain ⟨hlt, hval⟩ := scored_matches_mem (hsm ▸ List.mem_cons_self hd tl)
    have hle : hd.2 ≤ 80 := hval ▸ hlow _ (getRec_mem hlt)
    show (if 80 < hd.2 then _ else _) = _
    rw [if_neg (by omega)]

theorem keyword_search_plain (catalog : List Record) (q : PyStr) (n : ℕ)
    (hplain : ∀ c ∈ q, plainChar c = true) :
    keyword_search catalog q n =
      .ok (if keyword_filter_literal catalog q = [] then no_results_msg
             else keyword_msg,
           (keyword_filter_literal catalog q).take n) := by
  rw [keyword_search, parseRegex_plain hplain]
  show (let idxs := keyword_indices catalog (litRegex q)
        if idxs = [] then Except.ok (no_results_msg, [])
        else Except.ok (keyword_msg, (idxs.take n).map (getRec catalog))) = _
  have hki : keyword_indices catalog (litRegex q) =
      (List.range catalog.length).filter fun i =>
        contains_sub q (search_blob (getRec catalog i)) := by
    rw [keyword_indices]
    exact filter_eq_filter fun i _ => re_search_lit q _
  have hmap : (keyword_indices catalog (litRegex q)).map (getRec catalog) =
      keyword_filter_literal catalog q := by
    rw [hki, keyword_filter_literal]
    exact range_filter_map_getRec catalog fun r => contains_sub q (search_blob r)
  have hlen : (keyword_filter_literal catalog q).length =
      (keyword_indices catalog (litRegex q)).length := by
    rw [← hmap, List.length_map]
  by_cases hk : keyword_filter_literal catalog q = []
  · have hidx : keyword_indices catalog (litRegex q) = [] := by
      have := hlen
      rw [hk] at this
      exact List.length_eq_zero.mp this.symm
    simp only [hidx, if_pos, hk, if_pos, List.take_nil]
  · have hidx : keyword_indices catalog (litRegex q) ≠ [] := by
      intro hc
      rw [hc] at hlen
      exact hk (List.length_eq_zero.mp (by simpa using hlen))
    simp only [if_neg hidx, if_neg hk]
    rw [List.map_take, hmap]

theorem recommend_title {ps : PyStr → PyStr → ℕ} {sim : ℕ → ℕ → ℚ}
    {catalog : List Record} {query : Option PyStr} {n idx s : ℕ}
    (hq : norm_query query ≠ [])
    (hbm : best_match ps catalog (norm_query query) = some (idx, s))
    (hs : 80 < s) :
    recommend ps sim catalog query n =
      .ok (title_msg (getRec catalog idx).title,
        (title_indices sim idx catalog.length n).map (getRec catalog)) := by
  rw [recommend]
  simp only [if_neg hq]
  rw [best_match] at hbm
  cases hsm : scored_matches ps catalog (norm_query query) with
  | nil => rw [hsm] at hbm; cases hbm
  | cons hd tl =>
    rw [hsm] at hbm
    obtain ⟨i0, s0⟩ := hd
    have heq : ((i0, s0) : ℕ × ℕ) = (idx, s) := Option.some.inj hbm
    rw [heq]
    show (if 80 < s then _ else _) = _
    rw [if_pos hs]

theorem title_indices_spec (sim : ℕ → ℕ → ℚ) {len : ℕ} (idx : ℕ) (n : ℕ)
    (hidx : idx < len)
    (hdiag : ∀ j < len, j ≠ idx → sim idx j < sim idx idx) :
    idx ∉ title_indices sim idx len n ∧
    List.Pairwise (fun a b => sim idx b ≤ sim idx a) (title_indices sim idx len n) ∧
    (title_indices sim idx len n).length = min n (len - 1) ∧
    (∀ j ∈ title_indices sim idx len n, j < len) ∧
    (∀ j ∈ title_indices sim idx len n, ∀ k, k < len → k ≠ idx →
      k ∉ title_indices sim idx len n → sim idx k ≤ sim idx j) := by
  have hx : ((idx, sim idx idx) : ℕ × ℚ) ∈
      (List.range len).map fun j => (j, sim idx j) :=
    List.mem_map.mpr ⟨idx, List.mem_range.mpr hidx, rfl⟩
  have hmax : ∀ y ∈ (List.range len).map fun j => (j, sim idx j),
      y ≠ ((idx, sim idx idx) : ℕ × ℚ) → y.2 < (sim idx idx) := by
    intro y hy hne
    obtain ⟨hlt, hform⟩ := mem_range_pairs hy
    by_cases hji : y.1 = idx
    · exact absurd (by rw [hform, hji]) hne
    · rw [hform]
      exact hdiag y.1 hlt hji
  obtain ⟨t, ht⟩ := sortDesc_head_strict hx hmax
  have htind : title_indices sim idx len n = (t.take n).map Prod.fst := by
    rw [title_indices, ht]
    rfl
  have hsorted : List.Sorted descRel ((idx, sim idx idx) :: t) := by
    rw [← ht]
    exact sortDesc_sorted _
  have hperm : (((idx, sim idx idx) : ℕ × ℚ) :: t).Perm
      ((List.range len).map fun j => (j, sim idx j)) := by
    rw [← ht]
    exact sortDesc_perm _
  have htmem : ∀ y ∈ t, y.1 < len ∧ y = (y.1, sim idx y.1) := fun y hy =>
    mem_range_pairs (hperm.mem_iff.mp (List.mem_cons_of_mem _ hy))
  have hnod : (((((idx, sim idx idx) : ℕ × ℚ)) :: t).map Prod.fst).Nodup := by
    have hp2 : ((((idx, sim idx idx) : ℕ × ℚ) :: t).map Prod.fst).Perm
        (((List.range len).map fun j => (j, sim idx j)).map Prod.fst) := hperm.map _
    rw [map_fst_range_pairs] at hp2
    exact hp2.nodup_iff.mpr (List.nodup_range len)
  have hnotin : idx ∉ t.map Prod.fst := by
    rw [List.map_cons] at hnod
    exact (List.nodup_cons.mp hnod).1
  have hpt : List.Pairwise descRel t := (List.pairwise_cons.mp hsorted).2
  have hptake : List.Pairwise descRel (t.take n) :=
    List.Pairwise.sublist (List.take_sublist n t) hpt
  refine ⟨?_, ?_, ?_, ?_, ?_⟩
  · rw [htind]
    intro hmem
    exact hnotin (((List.take_sublist n t).map Prod.fst).subset hmem)
  · rw [htind, List.pairwise_map]
    refine hptake.imp_of_mem ?_
    intro a b ha hb hrel
    have hfa := (htmem a ((List.take_sublist n t).subset ha)).2
    have hfb := (htmem b ((List.take_sublist n t).subset hb)).2
    obtain ⟨a1, a2⟩ := a
    obtain ⟨b1, b2⟩ := b
    have ha2 : a2 = sim idx a1 := congrArg Prod.snd hfa
    have hb2 : b2 = sim idx b1 := congrArg Prod.snd hfb
    rw [← ha2, ← hb2]
    exact hrel
  · have hlen_st : (((idx, sim idx idx) : ℕ × ℚ) :: t).length = len := by
      rw [hperm.length_eq, List.length_map, List.length_range]
    rw [htind, List.length_map, List.length_take]
    have htl : t.length = len - 1 := by
      simp only [List.length_cons] at hlen_st
      omega
    rw [htl]
  · rw [htind]
    intro j hj
    obtain ⟨y, hy, rfl⟩ := List.mem_map.mp hj
    exact (htmem y ((List.take_sublist n t).subset hy)).1
  · rw [htind]
    intro j hj k hk hkidx hknot
    obtain ⟨y, hy, rfl⟩ := List.mem_map.mp hj
    have hyform := (htmem y ((List.take_sublist n t).subset hy)).2
    have hxk : ((k, sim idx k) : ℕ × ℚ) ∈
        (List.range len).map fun j => (j, sim idx j) :=
      List.mem_map.mpr ⟨k, List.mem_range.mpr hk, rfl⟩
    have hxkx : ((k, sim idx k) : ℕ × ℚ) ≠ (idx, sim idx idx) := by
      intro hc
      exact hkidx (congrArg Prod.fst hc)
    have hxkt : ((k, sim idx k) : ℕ × ℚ) ∈ t := by
      rcases List.mem_cons.mp (hperm.mem_iff.mpr hxk) with hc | hc
      · exact absurd hc hxkx
      · exact hc
    have hxksplit : ((k, sim idx k) : ℕ × ℚ) ∈ t.take n ++ t.drop n := by
      rw [List.take_append_drop]
      exact hxkt
    have hpt2 : List.Pairwise descRel (t.take n ++ t.drop n) := by
      rw [List.take_append_drop]
      exact hpt
    rcases List.mem_append.mp hxksplit with hc | hc
    · exact absurd (List.mem_map.mpr ⟨_, hc, rfl⟩) hknot
    · have hrel : descRel y (k, sim idx k) :=
        (List.pairwise_append.mp hpt2).2.2 y hy _ hc
      have hy2 : y.2 = sim idx y.1 := congrArg Prod.snd hyform
      calc sim idx k ≤ y.2 := hrel
        _ = sim idx y.1 := hy2

theorem norm_query_all_space {s : PyStr} (h : ∀ c ∈ s, isPySpace c = true) :
    norm_query (some s) = [] := by
  have h1 : s.dropWhile isPySpace = [] := List.dropWhile_eq_nil_iff.mpr h
  rw [norm_query, pyStr, pyStrip, h1]
  rfl

theorem keyword_count_le {catalog : List Record} {q : PyStr} {n : ℕ}
    {hdr : PyStr} {recs : List Record}
    (h : keyword_search catalog q n = .ok (hdr, recs)) : recs.length ≤ n := by
  rw [keyword_search] at h
  split at h
  · exact Except.noConfusion h
  · dsimp only at h
    split at h
    · injection h with h'
      injection h' with h1 h2
      rw [← h2]
      simp
    · injection h with h'
      injection h' with h1 h2
      rw [← h2, List.length_map, List.length_take]
      omega

theorem keyword_hdr {catalog : List Record} {q : PyStr} {n : ℕ}
    {hdr : PyStr} {recs : List Record}
    (h : keyword_search catalog q n = .ok (hdr, recs)) :
    hdr = no_results_msg ∨ hdr = keyword_msg := by
  rw [keyword_search] at h
  split at h
  · exact Except.noConfusion h
  · dsimp only at h
    split at h
    · left
      injection h with h'
      injection h' with h1 h2
      exact h1.symm
    · right
      injection h with h'
      injection h' with h1 h2
      exact h1.symm

theorem title_msg_ne_empty (t : PyStr) : title_msg t ≠ empty_msg := by
  intro h
  have h1 : (title_msg t).head? = some 'I' := rfl
  have h2 : empty_msg.head? = some 'P' := rfl
  rw [h, h2] at h1
  exact absurd (Option.some.inj h1) (by decide)

theorem no_results_msg_ne_empty : no_results_msg ≠ empty_msg := by decide

theorem keyword_msg_ne_empty : keyword_msg ≠ empty_msg := by decide

theorem get_top_rated_sorted {catalog sorted_df : List Record}
    (h : IsSortValuesDesc catalog sorted_df) (page per_page : ℕ) :
    List.Pairwise (fun a b : Record => b.rating ≤ a.rating)
        (get_top_rated sorted_df page per_page) ∧
    (∀ r ∈ get_top_rated sorted_df page per_page, r ∈ catalog) ∧
    (get_top_rated sorted_df 1 per_page).length = min per_page catalog.length := by
  obtain ⟨hperm, hsorted⟩ := h
  have hsub : ∀ p pp, (get_top_rated sorted_df p pp).Sublist sorted_df := by
    intro p pp
    rw [get_top_rated]
    exact (List.take_sublist _ _).trans (List.drop_sublist _ _)
  refine ⟨?_, ?_, ?_⟩
  · exact List.Pairwise.sublist (hsub page per_page) hsorted
  · intro r hr
    exact hperm.mem_iff.mp ((hsub page per_page).subset hr)
  · rw [get_top_rated]
    simp only [Nat.sub_self, Nat.zero_mul, List.drop_zero, List.length_take]
    rw [hperm.length_eq]

/-- C3: for every count `n`, calling `recommend` with an empty or
whitespace-only query string returns the header
`Please enter a drama name or keyword.` together with an empty result
list, without raising an exception, regardless of `n`. -/
theorem recommend_empty_query (ps : PyStr → PyStr → ℕ) (sim : ℕ → ℕ → ℚ)
    (catalog : List Record) (s : PyStr) (n : ℕ)
    (h : ∀ c ∈ s, isPySpace c = true) :
    recommend ps sim catalog (some s) n = .ok (empty_msg, []) := by
  rw [recommend]
  dsimp only
  rw [norm_query_all_space h]
  rfl

/-- Witness for C3 at the one-space query with `n = 9`. -/
theorem recommend_empty_query_witness :
    recommend pr0 sim0 [] (some [' ']) 9 = .ok (empty_msg, []) :=
  recommend_empty_query pr0 sim0 [] [' '] 9 (by decide)

/-- C6: whenever `recommend` returns a record list (rather than
raising), that list has length at most the requested count. -/
theorem recommend_length_le (ps : PyStr → PyStr → ℕ) (sim : ℕ → ℕ → ℚ)
    (catalog : List Record) (query : Option PyStr) (n : ℕ)
    (hdr : PyStr) (recs : List Record)
    (h : recommend ps sim catalog query n = .ok (hdr, recs)) :
    recs.length ≤ n := by
  rw [recommend] at h
  dsimp only at h
  split at h
  · injection h with h'
    injection h' with h1 h2
    rw [← h2]
    simp
  · split at h
    · split at h
      · injection h with h'
        injection h' with h1 h2
        rw [← h2, List.length_map, title_indices, List.length_map,
          List.length_take]
        omega
      · exact keyword_count_le h
    · exact keyword_count_le h

/-- Witness for C6 on a keyword search returning one record. -/
theorem recommend_length_le_witness : ([recA] : List Record).length ≤ 5 :=
  recommend_length_le pr0 sim0 [recA] (some ('a' :: 'a' :: [])) 5
    keyword_msg [recA] rfl

/-- C7: a page whose slice start lies beyond the catalog length makes
`get_top_rated` return an empty record list rather than an error. -/
theorem get_top_rated_beyond_empty {catalog sorted_df : List Record}
    (h : IsSortValuesDesc catalog sorted_df) {page per_page : ℕ}
    (hbeyond : catalog.length ≤ (page - 1) * per_page) :
    get_top_rated sorted_df page per_page = [] := by
  rw [get_top_rated]
  have hl : sorted_df.length ≤ (page - 1) * per_page := by
    rw [h.1.length_eq]
    exact hbeyond
  rw [List.drop_eq_nil_of_le hl, List.take_nil]

/-- Witness for C7: page 9 of a one-record catalog. -/
theorem get_top_rated_beyond_empty_witness : get_top_rated [recA] 9 5 = [] :=
  get_top_rated_beyond_empty
    ⟨List.Perm.refl [recA], List.sorted_singleton recA⟩ (by decide)

/-- C8 (amended): the rating coercion never leaves a missing value
(an unparseable rating becomes 0) and passes parsed values through
unchanged, so the loaded ratings are nonnegative exactly when every
parseable raw rating is nonnegative — negative parsed values are not
clamped. -/
theorem load_rating_coerce_spec (cell : RawCell) :
    (to_numeric_coerce cell = none → load_rating cell = 0) ∧
    (∀ q, to_numeric_coerce cell = some q → load_rating cell = q) ∧
    ((∀ q, to_numeric_coerce cell = some q → 0 ≤ q) →
      0 ≤ load_rating cell) := by
  refine ⟨?_, ?_, ?_⟩
  · intro h
    rw [load_rating, h]
    rfl
  · intro q h
    rw [load_rating, h]
    rfl
  · intro h
    rw [load_rating]
    cases hc : to_numeric_coerce cell with
    | none => simp
    | some q => simpa using h q hc

/-- Witness for C8: an unparseable text cell coerces to 0, and a
numeric cell keeps its nonnegative value. -/
theorem load_rating_coerce_spec_witness :
    load_rating (RawCell.text ['a']) = 0 ∧
      0 ≤ load_rating (RawCell.num 3) :=
  ⟨(load_rating_coerce_spec (RawCell.text ['a'])).1 (by decide),
    (load_rating_coerce_spec (RawCell.num 3)).2.2
      fun q hq => (Option.some.inj hq) ▸ (by decide : (0 : ℚ) ≤ 3)⟩

/-- Counterexample to C8 as stated: the data may contain a parseable
negative rating, which the loader passes through unchanged, so loaded
ratings are not always `≥ 0`. -/
theorem load_rating_negative_cex :
    to_numeric_coerce (RawCell.text ('-' :: '1' :: [])) = some (-1) ∧
    load_rating (RawCell.text ('-' :: '1' :: [])) = -1 ∧
    load_rating (RawCell.text ('-' :: '1' :: [])) < 0 :=
  ⟨rfl, rfl, by decide⟩

/-- C10: calling `recommend` with the default `query=None` does not
produce the empty-input signal: `str(None)` is the non-empty string
`None`, which normalizes to `none`, so the call behaves exactly like an
ordinary search for the text `none` and its header is never the
empty-input message. -/
theorem recommend_none_default (ps : PyStr → PyStr → ℕ) (sim : ℕ → ℕ → ℚ)
    (catalog : List Record) (n : ℕ) :
    recommend ps sim catalog none n =
      recommend ps sim catalog (some ('n' :: 'o' :: 'n' :: 'e' :: [])) n ∧
    ∀ hdr recs, recommend ps sim catalog none n = .ok (hdr, recs) →
      hdr ≠ empty_msg := by
  constructor
  · rfl
  · intro hdr recs h
    rw [recommend] at h
    dsimp only at h
    rw [if_neg (by decide : ¬ norm_query (none : Option PyStr) = [])] at h
    split at h
    · split at h
      · injection h with h'
        injection h' with h1 h2
        rw [← h1]
        exact title_msg_ne_empty _
      · rcases keyword_hdr h with h1 | h1
        · rw [h1]
          exact no_results_msg_ne_empty
        · rw [h1]
          exact keyword_msg_ne_empty
    · rcases keyword_hdr h with h1 | h1
      · rw [h1]
        exact no_results_msg_ne_empty
      · rw [h1]
        exact keyword_msg_ne_empty

/-- Witness for C10 on the empty catalog: the `None` query reaches the
keyword branch and yields the no-results header, not the empty-input
one. -/
theorem recommend_none_default_witness :
    recommend pr0 sim0 [] none 5 =
      recommend pr0 sim0 [] (some ('n' :: 'o' :: 'n' :: 'e' :: [])) 5 ∧
    no_results_msg ≠ empty_msg :=
  ⟨(recommend_none_default pr0 sim0 [] 5).1,
    (recommend_none_default pr0 sim0 [] 5).2 no_results_msg [] rfl⟩

/-- C1 (amended): when the best fuzzy score exceeds 80 and the matched
record's diagonal similarity is strictly greater than every other
entry of its row, `recommend` takes the title branch: it returns the
records at the indices of positions `1..n` of the row sorted by
similarity descending; the matched index never appears, the returned
indices are in descending similarity order, their count is
`min n (len - 1)`, they are in range, and every omitted other record
is at most as similar as every returned one. -/
theorem recommend_title_branch_strict_diag
    (ps : PyStr → PyStr → ℕ) (sim : ℕ → ℕ → ℚ) (catalog : List Record)
    (query : PyStr) (n idx s : ℕ)
    (hq : norm_query (some query) ≠ [])
    (hbm : best_match ps catalog (norm_query (some query)) = some (idx, s))
    (hs : 80 < s)
    (hdiag : ∀ j < catalog.length, j ≠ idx → sim idx j < sim idx idx) :
    recommend ps sim catalog (some query) n =
      .ok (title_msg (getRec catalog idx).title,
        (title_indices sim idx catalog.length n).map (getRec catalog)) ∧
    idx ∉ title_indices sim idx catalog.length n ∧
    List.Pairwise (fun a b => sim idx b ≤ sim idx a)
      (title_indices sim idx catalog.length n) ∧
    (title_indices sim idx catalog.length n).length =
      min n (catalog.length - 1) ∧
    (∀ j ∈ title_indices sim idx catalog.length n, j < catalog.length) ∧
    (∀ j ∈ title_indices sim idx catalog.length n, ∀ k, k < catalog.length →
      k ≠ idx → k ∉ title_indices sim idx catalog.length n →
      sim idx k ≤ sim idx j) := by
  have hidx : idx < catalog.length := by
    have hmem : ((idx, s) : ℕ × ℕ) ∈
        scored_matches ps catalog (norm_query (some query)) := by
      rw [best_match] at hbm
      cases hsm : scored_matches ps catalog (norm_query (some query)) with
      | nil => rw [hsm] at hbm; cases hbm
      | cons hd tl =>
        rw [hsm] at hbm
        rw [← Option.some.inj hbm]
        exact List.mem_cons_self hd tl
    exact (scored_matches_mem hmem).1
  obtain ⟨h1, h2, h3, h4, h5⟩ := title_indices_spec sim idx n hidx hdiag
  exact ⟨recommend_title hq hbm hs, h1, h2, h3, h4, h5⟩

/-- Witness for C1: a two-record catalog, an exact-title style match on
the first record and an identity-like similarity matrix with a strict
diagonal. -/
theorem recommend_title_branch_strict_diag_witness :
    recommend prA simId [recA, recB] (some ('a' :: 'a' :: [])) 5 =
      .ok (title_msg (getRec [recA, recB] 0).title,
        (title_indices simId 0 (List.length [recA, recB]) 5).map
          (getRec [recA, recB])) ∧
    0 ∉ title_indices simId 0 (List.length [recA, recB]) 5 ∧
    List.Pairwise (fun a b => simId 0 b ≤ simId 0 a)
      (title_indices simId 0 (List.length [recA, recB]) 5) ∧
    (title_indices simId 0 (List.length [recA, recB]) 5).length =
      min 5 (List.length [recA, recB] - 1) ∧
    (∀ j ∈ title_indices simId 0 (List.length [recA, recB]) 5,
      j < List.length [recA, recB]) ∧
    (∀ j ∈ title_indices simId 0 (List.length [recA, recB]) 5, ∀ k,
      k < List.length [recA, recB] → k ≠ 0 →
      k ∉ title_indices simId 0 (List.length [recA, recB]) 5 →
      simId 0 k ≤ simId 0 j) :=
  recommend_title_branch_strict_diag prA simId [recA, recB]
    ('a' :: 'a' :: []) 5 0 95 (by decide) (by decide) (by decide) (by decide)

/-- Counterexample to C1 as stated: when another record ties the
diagonal similarity (duplicate descriptive fields give cosine 1.0) at
an earlier index, the stable descending sort puts the tying record
first, the code drops that record instead of the matched one, and the
matched record's own index appears in the returned list. -/
theorem recommend_title_branch_self_tie_cex :
    best_match prB [recA, recB] (norm_query (some ('b' :: 'b' :: []))) =
      some (1, 95) ∧
    recommend prB simOne [recA, recB] (some ('b' :: 'b' :: [])) 5 =
      .ok (title_msg (getRec [recA, recB] 1).title, [getRec [recA, recB] 1]) ∧
    title_indices simOne 1 (List.length [recA, recB]) 5 = [1] :=
  ⟨rfl, rfl, rfl⟩

/-- C2 (amended): on the keyword branch (best fuzzy score at most 80)
with a query containing only characters that have no regex meaning,
`recommend` returns exactly the records whose search blob contains the
query as a literal substring, in catalog order, truncated to the first
`n`; the header is the no-results message exactly when the filter is
empty.  (For general queries the filter is a regex match, see the
counterexample.) -/
theorem recommend_keyword_plain_literal
    (ps : PyStr → PyStr → ℕ) (sim : ℕ → ℕ → ℚ) (catalog : List Record)
    (query : PyStr) (n : ℕ)
    (hq : norm_query (some query) ≠ [])
    (hplain : ∀ c ∈ norm_query (some query), plainChar c = true)
    (hlow : ∀ r ∈ catalog,
      ps (norm_query (some query)) (search_blob r) ≤ 80) :
    recommend ps sim catalog (some query) n =
      .ok (if keyword_filter_literal catalog (norm_query (some query)) = []
             then no_results_msg else keyword_msg,
           (keyword_filter_literal catalog (norm_query (some query))).take n) := by
  rw [recommend_keyword hq hlow, keyword_search_plain _ _ _ hplain]

/-- Witness for C2: the query `aa` finds exactly the record whose blob
contains it, in catalog order. -/
theorem recommend_keyword_plain_literal_witness :
    recommend pr0 sim0 [recA, recB] (some ('a' :: 'a' :: [])) 5 =
      .ok (if keyword_filter_literal [recA, recB]
              (norm_query (some ('a' :: 'a' :: []))) = []
             then no_results_msg else keyword_msg,
           (keyword_filter_literal [recA, recB]
              (norm_query (some ('a' :: 'a' :: [])))).take 5) :=
  recommend_keyword_plain_literal pr0 sim0 [recA, recB] ('a' :: 'a' :: []) 5
    (by decide) (by decide) (by decide)

/-- Counterexample to C2 as stated: the pandas filter treats the query
as a regular expression, not a literal substring.  The query `.`
matches every record even though no search blob contains a literal
dot, so the returned records are not the literal-substring matches
(which would be none). -/
theorem recommend_keyword_regex_dot_cex :
    recommend pr0 sim0 [recA] (some ['.']) 5 = .ok (keyword_msg, [recA]) ∧
    contains_sub (norm_query (some ['.'])) (search_blob recA) = false ∧
    keyword_filter_literal [recA] (norm_query (some ['.'])) = [] :=
  ⟨rfl, by decide, by decide⟩

/-- C4 (amended): `get_top_rated` returns the one-indexed page slice of
a rating-descending ordering of the catalog: the slice is in
non-increasing rating order, all returned records belong to the
catalog, and page 1 with page size 5 returns `min 5 catalog.length`
records.  The order among equal-rating records is not specified (the
pandas quicksort with `ascending=False` is not stable), see the
counterexample. -/
theorem get_top_rated_desc_slice (catalog sorted_df : List Record)
    (page per_page : ℕ) (h : IsSortValuesDesc catalog sorted_df) :
    List.Pairwise (fun a b : Record => b.rating ≤ a.rating)
        (get_top_rated sorted_df page per_page) ∧
    (∀ r ∈ get_top_rated sorted_df page per_page, r ∈ catalog) ∧
    (get_top_rated sorted_df 1 5).length = min 5 catalog.length := by
  obtain ⟨h1, h2, _⟩ := get_top_rated_sorted h page per_page
  obtain ⟨_, _, h3⟩ := get_top_rated_sorted h 1 5
  exact ⟨h1, h2, h3⟩

/-- Witness for C4 on a one-record catalog at page 1. -/
theorem get_top_rated_desc_slice_witness :
    List.Pairwise (fun a b : Record => b.rating ≤ a.rating)
        (get_top_rated [recA] 1 5) ∧
    (∀ r ∈ get_top_rated [recA] 1 5, r ∈ [recA]) ∧
    (get_top_rated [recA] 1 5).length = min 5 (List.length [recA]) :=
  get_top_rated_desc_slice [recA] [recA] 1 5
    ⟨List.Perm.refl [recA], List.sorted_singleton recA⟩

/-- Counterexample to C4 as stated: with two equal-rating records the
pandas sort may deliver them in reversed order (its descending sort
reverses a non-stable ascending quicksort), which is a valid
rating-descending permutation yet differs from the stable
slice, so equal-rating records need not retain catalog order. -/
theorem get_top_rated_unstable_cex :
    IsSortValuesDesc [recA, recB] [recB, recA] ∧
    get_top_rated [recB, recA] 1 5 = [recB, recA] ∧
    stable_top_rated [recA, recB] 1 5 = [recA, recB] ∧
    decide (get_top_rated [recB, recA] 1 5 =
      stable_top_rated [recA, recB] 1 5) = false :=
  ⟨⟨List.Perm.swap recA recB [], by decide⟩, rfl, rfl, by decide⟩

/-- C5 (amended): on the keyword branch, when the (metacharacter-free,
hence valid as a pattern) query is contained in no record's search
blob, `recommend` returns the no-results header with an empty list
rather than raising; for invalid patterns such as a lone `(` the code
raises instead, see the counterexample. -/
theorem recommend_no_results
    (ps : PyStr → PyStr → ℕ) (sim : ℕ → ℕ → ℚ) (catalog : List Record)
    (query : PyStr) (n : ℕ)
    (hq : norm_query (some query) ≠ [])
    (hplain : ∀ c ∈ norm_query (some query), plainChar c = true)
    (hlow : ∀ r ∈ catalog,
      ps (norm_query (some query)) (search_blob r) ≤ 80)
    (hnone : ∀ r ∈ catalog,
      contains_sub (norm_query (some query)) (search_blob r) = false) :
    recommend ps sim catalog (some query) n = .ok (no_results_msg, []) := by
  rw [recommend_keyword hq hlow, keyword_search_plain _ _ _ hplain]
  have hk : keyword_filter_literal catalog (norm_query (some query)) = [] := by
    rw [keyword_filter_literal]
    rw [List.filter_eq_nil_iff]
    intro r hr
    rw [hnone r hr]
    simp
  rw [hk]
  simp

/-- Witness for C5: the query `zz` matches no blob and yields the
no-results signal. -/
theorem recommend_no_results_witness :
    recommend pr0 sim0 [recA] (some ('z' :: 'z' :: [])) 5 =
      .ok (no_results_msg, []) :=
  recommend_no_results pr0 sim0 [recA] ('z' :: 'z' :: []) 5
    (by decide) (by decide) (by decide) (by decide)

/-- Counterexample to C5 as stated: a query that is an invalid regex
pattern (a lone `(`) reaches the keyword branch, is contained in no
search blob, and makes the code raise `re.error` instead of returning
the no-results signal. -/
theorem recommend_invalid_regex_cex :
    (∀ r ∈ [recA], pr0 (norm_query (some ['('])) (search_blob r) ≤ 80) ∧
    contains_sub (norm_query (some ['('])) (search_blob recA) = false ∧
    recommend pr0 sim0 [recA] (some ['(']) 5 =
      .error (.unsupportedMeta '(') :=
  ⟨by decide, by decide, rfl⟩

/-- C9: the cosine similarity matrix built from any family of TF-IDF
row vectors is symmetric, and every diagonal entry is the maximum of
its row (rows of zero norm are identically zero, so their diagonal
0 is still the row maximum). -/
theorem cosine_sim_symm_diag_max (n d : ℕ)
    (v : Fin n → EuclideanSpace ℝ (Fin d)) (i j : Fin n) :
    cosine_sim v i j = cosine_sim v j i ∧
    cosine_sim v i j ≤ cosine_sim v i i := by
  constructor
  · rw [cosine_sim, cosine_sim]
    exact real_inner_comm _ _
  · rw [cosine_sim, cosine_sim]
    have hnu : ‖(‖v i‖)⁻¹ • v i‖ = 0 ∨ ‖(‖v i‖)⁻¹ • v i‖ = 1 := by
      rw [norm_smul, norm_inv, norm_norm]
      rcases eq_or_ne ‖v i‖ 0 with h | h
      · left
        rw [h]
        simp
      · right
        rw [inv_mul_cancel₀ h]
    have hnw : ‖(‖v j‖)⁻¹ • v j‖ ≤ 1 := by
      rw [norm_smul, norm_inv, norm_norm]
      rcases eq_or_ne ‖v j‖ 0 with h | h
      · rw [h]
        simp
      · rw [inv_mul_cancel₀ h]
    rcases hnu with h0 | h1
    · have hu0 : (‖v i‖)⁻¹ • v i = 0 := norm_eq_zero.mp h0
      rw [hu0]
      simp
    · calc @inner ℝ _ _ ((‖v i‖)⁻¹ • v i) ((‖v j‖)⁻¹ • v j) ≤
            ‖(‖v i‖)⁻¹ • v i‖ * ‖(‖v j‖)⁻¹ • v j‖ := real_inner_le_norm _ _
        _ ≤ 1 * 1 := by
            rw [h1, one_mul, mul_one]
            exact hnw
        _ = ‖(‖v i‖)⁻¹ • v i‖ * ‖(‖v i‖)⁻¹ • v i‖ := by rw [h1, one_mul]
        _ = @inner ℝ _ _ ((‖v i‖)⁻¹ • v i) ((‖v i‖)⁻¹ • v i) :=
            (real_inner_self_eq_norm_mul_norm _).symm

